import Mathlib

/- Shallow embedding of the Pico W temperature monitor firmware
   (src/sketch_nov14a_pico_w_temp.ino).  Machine integers (`uint32_t` and
   `unsigned long`, both 32 bits wide on the RP2040) are modelled as `Nat`
   with explicit reductions modulo `2 ^ 32` wherever the C arithmetic can
   wrap; C `float` temperature values are idealised as exact rationals. -/

namespace PicoTemp

section RatKernelEval

/- Batteries marks the rational arithmetic operations `[irreducible]`,
   which blocks `decide` and `rfl` on concrete rational computations; the
   kernel itself reduces them fine, so we restore the default reducibility
   for this development. -/
attribute [local semireducible] Rat.add Rat.mul Rat.sub Rat.inv

/-- Width of `uint32_t` / `unsigned long` arithmetic on the RP2040. -/
def U32 : Nat := 2 ^ 32

/-- `MAX_SAMPLES` from the configuration section. -/
def MAX_SAMPLES : Nat := 2000

/-- `TZ_OFFSET_SECONDS = 5*3600 + 30*60` (IST). -/
def TZ_OFFSET_SECONDS : Nat := 5 * 3600 + 30 * 60

/-- `struct Sample with uint32_t epoch and float tempC`. -/
structure Sample where
  epoch : Nat
  tempC : Rat
deriving DecidableEq, Repr

/-- One append to the sample store, the code shared by the sampling branch
of `loop` and by the `/import` handler: insert at the end while below
`MAX_SAMPLES`, otherwise `memmove` the array down one slot (dropping index
0) and write the new sample at index `MAX_SAMPLES - 1`. -/
def appendSample (store : List Sample) (s : Sample) : List Sample :=
  if store.length < MAX_SAMPLES then store ++ [s]
  else store.drop 1 ++ [s]

/-- Clock state: the `lastNtpSyncSec` and `ntpSyncMillis` globals (both 0
until the first successful NTP exchange). -/
structure ClockState where
  lastNtpSyncSec : Nat
  ntpSyncMillis : Nat
deriving DecidableEq, Repr

/-- `getEpochUTC()`: fall back to `millis()/1000` when either global is 0,
else `lastNtpSyncSec + (millis() - ntpSyncMillis) / 1000` in `uint32`
arithmetic (`ms` and the stored fields are meant to be below `U32`). -/
def getEpochUTC (st : ClockState) (ms : Nat) : Nat :=
  if st.lastNtpSyncSec = 0 ∨ st.ntpSyncMillis = 0 then ms / 1000
  else (st.lastNtpSyncSec + ((ms + U32 - st.ntpSyncMillis) % U32) / 1000) % U32

/-- NTP update in `setup` and `loop`: a sync attempt at tick `ev.1`
returning `ev.2` (`getNTPTime` yields 0 on failure) stores the received
time and the current tick only when the result is nonzero. -/
def clockStep (st : ClockState) (ev : Nat × Nat) : ClockState :=
  if ev.2 ≠ 0 then ⟨ev.2, ev.1⟩ else st

/-- Clock state after a sequence of sync attempts, starting from the boot
state (both globals zero). -/
def clockRun (evs : List (Nat × Nat)) : ClockState :=
  evs.foldl clockStep ⟨0, 0⟩

/-- `getLocalEpoch()`. -/
def getLocalEpoch (st : ClockState) (ms : Nat) : Nat :=
  (getEpochUTC st ms + TZ_OFFSET_SECONDS) % U32

/-- Local timestamp of a sample, `samples[i].epoch + TZ_OFFSET_SECONDS`,
as computed in `uint32` arithmetic. -/
def localOf (s : Sample) : Nat := (s.epoch + TZ_OFFSET_SECONDS) % U32

/-- Cutoff used by `getFilteredData` and `generateSummary`:
`now - (now % 86400)` for daily, `now - 7*86400` (a wrapping `uint32`
subtraction) for weekly. -/
def cutoff (daily : Bool) (now : Nat) : Nat :=
  if daily then now - now % 86400
  else (now + (U32 - 7 * 86400)) % U32

/-- In-window test shared by `getFilteredData` and `generateSummary`:
`local >= cutoff`, strengthened by `local/86400 == now/86400` for the
daily scope. -/
def inPeriod (daily : Bool) (now localT : Nat) : Bool :=
  decide (cutoff daily now ≤ localT) &&
    (!daily || decide (localT / 86400 = now / 86400))

/-- `getFilteredData`: the sequence of samples serialised into the JSON
array of the `/data_daily.json` and `/data_weekly.json` routes (the
`sampleCount == 0` early return produces the same empty list). -/
def getFilteredData (isDaily : Bool) (now : Nat) (store : List Sample) : List Sample :=
  store.filter fun s => inPeriod isDaily now (localOf s)

/-- Statistics assembled by `generateSummary` (`trend` is printed only for
the daily scope but is computed for both).  The fields `minT` and `maxT`
stand for the source's `min` and `max` locals. -/
structure Stats where
  cnt : Nat
  avg : Rat
  minT : Rat
  maxT : Rat
  trend : String
deriving DecidableEq, Repr

/-- Result of `generateSummary`: an error JSON carrying a message, or the
statistics JSON (only the payload, not the textual rendering, is
modelled). -/
inductive SummaryResult where
  | err (msg : String)
  | ok (stats : Stats)
deriving DecidableEq, Repr

/-- Accumulator step of the statistics loop in `generateSummary`: running
sum, count, minimum initialised to 200 and maximum initialised to -200. -/
def sumStep (daily : Bool) (now : Nat) (acc : Rat × Nat × Rat × Rat) (s : Sample) :
    Rat × Nat × Rat × Rat :=
  if inPeriod daily now (localOf s) then
    (acc.1 + s.tempC, acc.2.1 + 1,
      if s.tempC < acc.2.2.1 then s.tempC else acc.2.2.1,
      if s.tempC > acc.2.2.2 then s.tempC else acc.2.2.2)
  else acc

/-- `generateSummary`. -/
def generateSummary (daily : Bool) (now : Nat) (store : List Sample) : SummaryResult :=
  if store.length = 0 then
    .err (if daily then "No data" else "No weekly data")
  else
    let r := store.foldl (sumStep daily now) (0, 0, 200, -200)
    if r.2.1 = 0 then
      .err (if daily then "No samples today" else "No weekly data")
    else
      .ok ⟨r.2.1, r.1 / (r.2.1 : Rat), r.2.2.1, r.2.2.2,
        if r.2.2.2 - r.2.2.1 < 1 then "Stable"
        else if r.2.2.2 - r.2.2.1 < 3 then "Mild" else "Variable"⟩

/-- The `/summary` route: always a `200 OK` response whose JSON body
combines the daily and the weekly summary (the body is abstracted to the
pair of summary results). -/
def summaryRoute (now : Nat) (store : List Sample) :
    String × SummaryResult × SummaryResult :=
  ("200 OK", generateSummary true now store, generateSummary false now store)

/-- The `isspace` characters removed by Arduino `String::trim`. -/
def isSpace (c : Char) : Bool :=
  c = ' ' || c = '\t' || c = '\n' || c = '\x0b' || c = '\x0c' || c = '\r'

/-- Arduino `String::trim`: strip leading and trailing whitespace. -/
def trimChars (l : List Char) : List Char :=
  ((l.dropWhile isSpace).reverse.dropWhile isSpace).reverse

/-- Index of the first comma (`String::indexOf(',')`, `none` for -1). -/
def commaIdx : List Char → Option Nat
  | [] => none
  | c :: rest => if c = ',' then some 0 else (commaIdx rest).map (· + 1)

/-- Numeric value of a digit character. -/
def digitVal (c : Char) : Nat := c.toNat - 48

/-- Value of a run of decimal digits (the accumulating loop inside the C
library's `strtol` and `strtod`). -/
def digitsVal (l : List Char) : Nat :=
  l.foldl (fun a c => a * 10 + digitVal c) 0

/-- Unsaturated accumulation of `strtol`: optional whitespace and sign,
then a maximal run of digits; 0 when no digits are present. -/
def parseSignedInt (l : List Char) : Int :=
  let t := l.dropWhile isSpace
  if t.head? = some '-' then -(digitsVal ((t.drop 1).takeWhile Char.isDigit) : Int)
  else if t.head? = some '+' then (digitsVal ((t.drop 1).takeWhile Char.isDigit) : Int)
  else (digitsVal (t.takeWhile Char.isDigit) : Int)

/-- Upper bound of the RP2040's 32-bit `long`. -/
def LONG_MAX : Int := 2 ^ 31 - 1

/-- Lower bound of the RP2040's 32-bit `long`. -/
def LONG_MIN : Int := -(2 ^ 31)

/-- Saturation applied by newlib `strtol` when the parsed value overflows
the 32-bit `long` range. -/
def clampLong (v : Int) : Int :=
  if v > LONG_MAX then LONG_MAX else if v < LONG_MIN then LONG_MIN else v

/-- Arduino `String::toInt` (newlib `atol`, i.e. `strtol` on the RP2040's
32-bit `long`): the accumulated value saturates at `LONG_MAX` and
`LONG_MIN` on overflow. -/
def atolLong (l : List Char) : Int := clampLong (parseSignedInt l)

/-- Conversion of the parsed `long` into the `uint32_t` it is stored
into. -/
def toIntU32 (l : List Char) : Nat := (atolLong l % (U32 : Int)).toNat

/-- Mantissa part of `atof`: integer digits, then an optional point with
fractional digits; also returns the unconsumed remainder. -/
def parseUnsignedRat (l : List Char) : Rat × List Char :=
  let ds := l.takeWhile Char.isDigit
  let rest := l.dropWhile Char.isDigit
  if rest.head? = some '.' then
    let fs := (rest.drop 1).takeWhile Char.isDigit
    ((digitsVal ds : Rat) + (digitsVal fs : Rat) / (10 : Rat) ^ fs.length,
      (rest.drop 1).dropWhile Char.isDigit)
  else ((digitsVal ds : Rat), rest)

/-- Signed exponent part of `atof` after the `e` marker. -/
def applyExpSigned (x : Rat) (r : List Char) : Rat :=
  if r.head? = some '-' then x / (10 : Rat) ^ digitsVal ((r.drop 1).takeWhile Char.isDigit)
  else if r.head? = some '+' then x * (10 : Rat) ^ digitsVal ((r.drop 1).takeWhile Char.isDigit)
  else x * (10 : Rat) ^ digitsVal (r.takeWhile Char.isDigit)

/-- Optional decimal exponent of `atof`. -/
def applyExp (x : Rat) (l : List Char) : Rat :=
  if l.head? = some 'e' ∨ l.head? = some 'E' then applyExpSigned x (l.drop 1) else x

/-- Arduino `String::toFloat` (newlib `atof`) on decimal inputs, idealised
over `Rat`: whitespace, optional sign, mantissa, optional exponent; 0 when
nothing numeric is present. -/
def parseFloatRat (l : List Char) : Rat :=
  let t := l.dropWhile isSpace
  if t.head? = some '-' then
    let p := parseUnsignedRat (t.drop 1)
    Neg.neg (applyExp p.1 p.2)
  else if t.head? = some '+' then
    let p := parseUnsignedRat (t.drop 1)
    applyExp p.1 p.2
  else
    let p := parseUnsignedRat t
    applyExp p.1 p.2

/-- Line handling shared verbatim by `loadCSV` and the `/import` handler:
trim, find the first comma, skip the line when there is no comma or it
sits at index 0 (this also skips empty lines), otherwise `toInt` the
prefix and `toFloat` the suffix. -/
def parseLine (line : List Char) : Option (Nat × Rat) :=
  let t := trimChars line
  match commaIdx t with
  | none => none
  | some c =>
      if c = 0 then none
      else some (toIntU32 (t.take c), parseFloatRat (t.drop (c + 1)))

/-- Loop splitting a buffer at newline characters (`readStringUntil` in
`loadCSV`, the `indexOf` walk in the `/import` handler): no empty trailing
line is produced when the buffer ends in a newline. -/
def splitNlGo (cur : List Char) : List Char → List (List Char)
  | [] => [cur]
  | c :: rest =>
      if c = '\n' then
        cur :: (if rest = [] then [] else splitNlGo [] rest)
      else splitNlGo (cur ++ [c]) rest

/-- Split a file or request body into lines. -/
def splitNl (body : List Char) : List (List Char) :=
  if body = [] then [] else splitNlGo [] body

/-- Decimal digit character. -/
def digitChar (d : Nat) : Char := Char.ofNat (48 + d)

/-- Decimal rendering of a nonnegative integer; the fuel argument bounds
the recursion depth. -/
def natDecimalAux : Nat → Nat → List Char
  | 0, _ => []
  | fuel + 1, n =>
      if n < 10 then [digitChar n]
      else natDecimalAux fuel (n / 10) ++ [digitChar (n % 10)]

/-- Rendering of the `u` conversion in `printf`. -/
def natDecimal (n : Nat) : List Char := natDecimalAux (n + 1) n

/-- Nearest-integer rounding of `100 * q`, modelling the rounding applied
by the `.2f` conversion in `printf` (the tie-breaking rule is immaterial
to every claim checked here). -/
def round2 (q : Rat) : Int := ⌊q * 100 + 1 / 2⌋

/-- Exactly-two-digit fractional part. -/
def twoDec (m : Nat) : List Char := [digitChar (m / 10), digitChar (m % 10)]

/-- Rendering of the `.2f` conversion in `printf` for the temperature
field. -/
def fmt2 (q : Rat) : List Char :=
  let n := round2 q
  let m := n.natAbs
  let body := natDecimal (m / 100) ++ '.' :: twoDec (m % 100)
  if n < 0 then '-' :: body else body

/-- Text of one record before its terminating newline: epoch, comma,
2-decimal temperature. -/
def csvLineBody (e : Nat) (t : Rat) : List Char :=
  natDecimal e ++ ',' :: fmt2 t

/-- The record written by `appendCSV` and `saveAllToFS`: epoch, comma,
2-decimal temperature, newline. -/
def csvLine (e : Nat) (t : Rat) : List Char :=
  csvLineBody e t ++ ['\n']

/-- Value a `Sample` round-trips to through the 2-decimal formatting and
the saturating `toInt` of the reload: the temperature is rounded to two
decimals and the epoch is capped at `LONG_MAX`. -/
def round2Sample (s : Sample) : Sample :=
  ⟨min s.epoch (2 ^ 31 - 1), (round2 s.tempC : Rat) / 100⟩

/-- `saveAllToFS`: truncate the file and rewrite every stored sample. -/
def saveAllToFS (store : List Sample) : List Char :=
  (store.map fun s => csvLine s.epoch s.tempC).flatten

/-- Reading loop of `loadCSV`: parse line by line while below capacity,
skipping lines without a comma at index 1 or later. -/
def loadCSVLines : List (List Char) → List Sample → List Sample
  | [], acc => acc
  | l :: ls, acc =>
      if acc.length < MAX_SAMPLES then
        match parseLine l with
        | none => loadCSVLines ls acc
        | some (e, t) => loadCSVLines ls (acc ++ [⟨e, t⟩])
      else acc

/-- `loadCSV` applied to the current file contents. -/
def loadCSV (content : List Char) : List Sample :=
  loadCSVLines (splitNl content) []

/-- One line of the `/import` loop: skip the line or append the parsed
record to the store, bump the count, and append to the file. -/
def importStep (acc : List Sample × Nat × List Char) (line : List Char) :
    List Sample × Nat × List Char :=
  match parseLine line with
  | none => acc
  | some (e, t) => (appendSample acc.1 ⟨e, t⟩, acc.2.1 + 1, acc.2.2 ++ csvLine e t)

/-- The `/import` handler: clear the file and the store, then walk the
body line by line, appending each parsed record to the store (with
oldest-first eviction at capacity) and to the file, and counting it.
Returns the final store, the reported import count, and the file. -/
def importBody (body : List Char) : List Sample × Nat × List Char :=
  (splitNl body).foldl importStep ([], 0, [])

/-- Running minimum with the source's update `if (t < min) min = t`. -/
def foldMin (a : Rat) (l : List Rat) : Rat :=
  l.foldl (fun x t => if t < x then t else x) a

/-- Running maximum with the source's update `if (t > max) max = t`. -/
def foldMax (a : Rat) (l : List Rat) : Rat :=
  l.foldl (fun x t => if t > x then t else x) a

/-- Temperatures of the samples selected by the shared window predicate. -/
def windowTemps (daily : Bool) (now : Nat) (store : List Sample) : List Rat :=
  (store.filter fun s => inPeriod daily now (localOf s)).map Sample.tempC

/-- Payload produced by `generateSummary` on a non-empty window. -/
def okStats (daily : Bool) (now : Nat) (store : List Sample) : Stats :=
  ⟨(windowTemps daily now store).length,
    (windowTemps daily now store).sum / ((windowTemps daily now store).length : Rat),
    foldMin 200 (windowTemps daily now store),
    foldMax (-200) (windowTemps daily now store),
    if foldMax (-200) (windowTemps daily now store) -
        foldMin 200 (windowTemps daily now store) < 1 then "Stable"
    else if foldMax (-200) (windowTemps daily now store) -
        foldMin 200 (windowTemps daily now store) < 3 then "Mild"
    else "Variable"⟩

/- ===================== Sample store: ring-buffer behaviour ============= -/

theorem foldl_appendSample (xs : List Sample) (l : List Sample)
    (h : l.length ≤ MAX_SAMPLES) :
    List.foldl appendSample l xs =
      (l ++ xs).drop (l.length + xs.length - MAX_SAMPLES) := by
  have hM : MAX_SAMPLES = 2000 := rfl
  induction xs generalizing l with
  | nil =>
      simp only [List.foldl_nil, List.append_nil, List.length_nil,
        Nat.add_zero, Nat.sub_eq_zero_of_le h, List.drop_zero]
  | cons x xs ih =>
      rw [List.foldl_cons]
      by_cases hlt : l.length < MAX_SAMPLES
      · have hx : appendSample l x = l ++ [x] := by
          simp [appendSample, hlt]
        rw [hx, ih (l ++ [x]) (by simp only [List.length_append,
          List.length_singleton]; omega)]
        have harr : l ++ [x] ++ xs = l ++ x :: xs := by simp
        have hamt : (l ++ [x]).length + xs.length - MAX_SAMPLES =
            l.length + (x :: xs).length - MAX_SAMPLES := by
          simp only [List.length_append, List.length_singleton, List.length_cons,
            List.length_nil, MAX_SAMPLES]
          omega
        rw [harr, hamt]
      · have heq : l.length = MAX_SAMPLES := by omega
        have hx : appendSample l x = l.drop 1 ++ [x] := by
          simp [appendSample, hlt]
        have hlen1 : (l.drop 1 ++ [x]).length = MAX_SAMPLES := by
          simp only [List.length_append, List.length_singleton, List.length_drop]
          omega
        rw [hx, ih _ (le_of_eq hlen1), hlen1]
        cases l with
        | nil =>
            rw [List.length_nil] at heq
            exact absurd heq.symm (by decide)
        | cons a t =>
            have h1 : a :: t ++ x :: xs = a :: (t ++ x :: xs) := by simp
            have h2 : (a :: t).drop 1 ++ [x] ++ xs = t ++ x :: xs := by simp
            rw [h1, h2]
            have h3 : (a :: t).length + (x :: xs).length - MAX_SAMPLES =
                (MAX_SAMPLES + xs.length - MAX_SAMPLES) + 1 := by
              rw [List.length_cons, List.length_cons]
              rw [List.length_cons] at heq
              omega
            rw [h3, List.drop_succ_cons]

/-- C1: appending more than `MAX_SAMPLES = 2000` samples (sensor samples
or import lines) leaves the store at exactly `MAX_SAMPLES` entries, and
those entries are exactly the 2000 most recently appended samples in their
original relative order; an append at capacity drops index 0, shifts the
rest down, and inserts at the end. -/
theorem c1_store_ring_behaviour (init xs : List Sample)
    (hinit : init.length ≤ MAX_SAMPLES) (hlen : MAX_SAMPLES < xs.length) :
    (List.foldl appendSample init xs).length = MAX_SAMPLES ∧
    List.foldl appendSample init xs = xs.drop (xs.length - MAX_SAMPLES) ∧
    (∀ store s, store.length = MAX_SAMPLES →
      appendSample store s = store.drop 1 ++ [s]) := by
  have hfold := foldl_appendSample xs init hinit
  have hamt : init.length + xs.length - MAX_SAMPLES =
      init.length + (xs.length - MAX_SAMPLES) := by omega
  have hdrop : List.foldl appendSample init xs =
      xs.drop (xs.length - MAX_SAMPLES) := by
    rw [hfold, hamt, List.drop_append]
  refine ⟨?_, hdrop, ?_⟩
  · rw [hdrop]
    simp [List.length_drop]
    omega
  · intro store s hlen'
    simp [appendSample, hlen']

/-- Witness for C1 at a concrete overfull input: 2001 identical appends
into the empty store leave exactly 2000 entries. -/
theorem c1_store_ring_behaviour_witness :
    ([] : List Sample).length ≤ MAX_SAMPLES ∧
    MAX_SAMPLES < (List.replicate 2001 (⟨0, 20⟩ : Sample)).length ∧
    (List.foldl appendSample [] (List.replicate 2001 (⟨0, 20⟩ : Sample))).length =
      MAX_SAMPLES :=
  ⟨by decide, by simp only [List.length_replicate, MAX_SAMPLES]; omega,
    (c1_store_ring_behaviour [] (List.replicate 2001 ⟨0, 20⟩) (by decide)
      (by simp only [List.length_replicate, MAX_SAMPLES]; omega)).1⟩

/- ===================== Aggregation: fold characterisation ============= -/

theorem foldl_sumStep (daily : Bool) (now : Nat) (store : List Sample)
    (s0 : Rat) (c0 : Nat) (l0 h0 : Rat) :
    store.foldl (sumStep daily now) (s0, c0, l0, h0) =
      (s0 + (windowTemps daily now store).sum,
        c0 + (windowTemps daily now store).length,
        foldMin l0 (windowTemps daily now store),
        foldMax h0 (windowTemps daily now store)) := by
  induction store generalizing s0 c0 l0 h0 with
  | nil => simp [windowTemps, foldMin, foldMax]
  | cons s rest ih =>
      by_cases hp : inPeriod daily now (localOf s) = true
      · have hw : windowTemps daily now (s :: rest) =
            s.tempC :: windowTemps daily now rest := by
          simp [windowTemps, List.filter_cons, hp]
        have hs : sumStep daily now (s0, c0, l0, h0) s =
            (s0 + s.tempC, c0 + 1,
              if s.tempC < l0 then s.tempC else l0,
              if s.tempC > h0 then s.tempC else h0) := by
          simp [sumStep, hp]
        rw [List.foldl_cons, hs, ih, hw]
        simp only [List.sum_cons, List.length_cons, foldMin, foldMax,
          List.foldl_cons, Prod.mk.injEq]
        exact ⟨by ring, by omega, by trivial⟩
      · have hw : windowTemps daily now (s :: rest) =
            windowTemps daily now rest := by
          simp [windowTemps, List.filter_cons, hp]
        have hs : sumStep daily now (s0, c0, l0, h0) s = (s0, c0, l0, h0) := by
          simp [sumStep, hp]
        rw [List.foldl_cons, hs, ih, hw]

theorem foldMin_le_start (l : List Rat) (a : Rat) : foldMin a l ≤ a := by
  induction l generalizing a with
  | nil => simp [foldMin]
  | cons t l ih =>
      have h1 : foldMin a (t :: l) = foldMin (if t < a then t else a) l := rfl
      rw [h1]
      refine le_trans (ih _) ?_
      split
      · exact le_of_lt (by assumption)
      · exact le_refl a

theorem foldMin_le_mem (l : List Rat) (a : Rat) : ∀ x ∈ l, foldMin a l ≤ x := by
  induction l generalizing a with
  | nil => intro x hx; simp at hx
  | cons t l ih =>
      intro x hx
      have h1 : foldMin a (t :: l) = foldMin (if t < a then t else a) l := rfl
      rcases List.mem_cons.mp hx with rfl | hx'
      · rw [h1]
        refine le_trans (foldMin_le_start _ _) ?_
        split
        · exact le_refl x
        · exact le_of_not_lt (by assumption)
      · rw [h1]; exact ih _ x hx'

theorem foldMin_attained (l : List Rat) (a : Rat) :
    foldMin a l = a ∨ foldMin a l ∈ l := by
  induction l generalizing a with
  | nil => left; rfl
  | cons t l ih =>
      have h1 : foldMin a (t :: l) = foldMin (if t < a then t else a) l := rfl
      rcases ih (if t < a then t else a) with heq | hmem
      · rw [h1, heq]
        split
        · right; exact List.mem_cons_self _ _
        · left; rfl
      · right
        rw [h1]
        exact List.mem_cons_of_mem _ hmem

theorem foldMax_ge_start (l : List Rat) (a : Rat) : a ≤ foldMax a l := by
  induction l generalizing a with
  | nil => simp [foldMax]
  | cons t l ih =>
      have h1 : foldMax a (t :: l) = foldMax (if t > a then t else a) l := rfl
      rw [h1]
      refine le_trans ?_ (ih _)
      split
      · exact le_of_lt (by assumption)
      · exact le_refl a

theorem foldMax_mem_le (l : List Rat) (a : Rat) : ∀ x ∈ l, x ≤ foldMax a l := by
  induction l generalizing a with
  | nil => intro x hx; simp at hx
  | cons t l ih =>
      intro x hx
      have h1 : foldMax a (t :: l) = foldMax (if t > a then t else a) l := rfl
      rcases List.mem_cons.mp hx with rfl | hx'
      · rw [h1]
        refine le_trans ?_ (foldMax_ge_start _ _)
        split
        · exact le_refl x
        · exact le_of_not_lt (by assumption)
      · rw [h1]; exact ih _ x hx'

theorem foldMax_attained (l : List Rat) (a : Rat) :
    foldMax a l = a ∨ foldMax a l ∈ l := by
  induction l generalizing a with
  | nil => left; rfl
  | cons t l ih =>
      have h1 : foldMax a (t :: l) = foldMax (if t > a then t else a) l := rfl
      rcases ih (if t > a then t else a) with heq | hmem
      · rw [h1, heq]
        split
        · right; exact List.mem_cons_self _ _
        · left; rfl
      · right
        rw [h1]
        exact List.mem_cons_of_mem _ hmem

theorem length_mul_le_sum (l : List Rat) (m : Rat) (h : ∀ x ∈ l, m ≤ x) :
    (l.length : Rat) * m ≤ l.sum := by
  induction l with
  | nil => simp
  | cons t l ih =>
      have h1 := ih (fun x hx => h x (List.mem_cons_of_mem _ hx))
      have h2 := h t (List.mem_cons_self _ _)
      simp only [List.length_cons, List.sum_cons]
      push_cast
      calc ((l.length : Rat) + 1) * m = (l.length : Rat) * m + m := by ring
        _ ≤ l.sum + m := by exact add_le_add_right h1 m
        _ ≤ l.sum + t := by exact add_le_add_left h2 _
        _ = t + l.sum := by ring

theorem sum_le_length_mul (l : List Rat) (m : Rat) (h : ∀ x ∈ l, x ≤ m) :
    l.sum ≤ (l.length : Rat) * m := by
  induction l with
  | nil => simp
  | cons t l ih =>
      have h1 := ih (fun x hx => h x (List.mem_cons_of_mem _ hx))
      have h2 := h t (List.mem_cons_self _ _)
      simp only [List.length_cons, List.sum_cons]
      push_cast
      calc t + l.sum ≤ m + l.sum := by exact add_le_add_right h2 _
        _ ≤ m + (l.length : Rat) * m := by exact add_le_add_left h1 _
        _ = ((l.length : Rat) + 1) * m := by ring

theorem generateSummary_eq_ok (daily : Bool) (now : Nat) (store : List Sample)
    (h0 : store ≠ []) (hw : windowTemps daily now store ≠ []) :
    generateSummary daily now store = .ok (okStats daily now store) := by
  unfold generateSummary
  rw [if_neg (by simpa [List.length_eq_zero] using h0)]
  simp only [foldl_sumStep, Nat.zero_add, zero_add]
  rw [if_neg (by simpa [List.length_eq_zero] using hw)]
  rfl

theorem generateSummary_eq_err (daily : Bool) (now : Nat) (store : List Sample)
    (hw : windowTemps daily now store = []) :
    generateSummary daily now store =
      .err (if store.length = 0 then (if daily then "No data" else "No weekly data")
        else (if daily then "No samples today" else "No weekly data")) := by
  unfold generateSummary
  by_cases h0 : store.length = 0
  · rw [if_pos h0, if_pos h0]
  · rw [if_neg h0, if_neg h0]
    simp only [foldl_sumStep, Nat.zero_add, zero_add]
    rw [if_pos (by simp [hw])]

theorem generateSummary_ok_inv (daily : Bool) (now : Nat) (store : List Sample)
    (stats : Stats) (h : generateSummary daily now store = .ok stats) :
    store ≠ [] ∧ windowTemps daily now store ≠ [] ∧
      stats = okStats daily now store := by
  by_cases h0 : store = []
  · subst h0
    simp [generateSummary] at h
  · by_cases hw : windowTemps daily now store = []
    · rw [generateSummary_eq_err daily now store hw] at h
      exact absurd h (by simp)
    · rw [generateSummary_eq_ok daily now store h0 hw] at h
      exact ⟨h0, hw, (SummaryResult.ok.injEq _ _ ▸ h).symm⟩

theorem generateSummary_err_inv (daily : Bool) (now : Nat) (store : List Sample)
    (e : String) (h : generateSummary daily now store = .err e) :
    e = (if daily then "No data" else "No weekly data") ∨
      e = (if daily then "No samples today" else "No weekly data") := by
  by_cases h0 : store = []
  · subst h0
    left
    cases daily <;> simpa [generateSummary] using h.symm
  · by_cases hw : windowTemps daily now store = []
    · rw [generateSummary_eq_err daily now store hw] at h
      right
      rw [if_neg (by simpa [List.length_eq_zero] using h0)] at h
      exact (SummaryResult.err.injEq _ _ ▸ h).symm
    · rw [generateSummary_eq_ok daily now store h0 hw] at h
      exact absurd h (by simp)

/-- C2 counterexample: for the weekly window at local time 604800 the only
in-window sample has temperature 300, yet the summary reports a minimum of
200 (the fold's initial sentinel) — so the summary's min is not the
minimum of the in-window temperature values as the claim states. -/
theorem c2_min_not_window_min :
    generateSummary false 604800 [⟨100, 300⟩] =
      .ok ⟨1, 300, 200, 300, "Variable"⟩ ∧
    windowTemps false 604800 [⟨100, 300⟩] = [300] ∧
    (200 : Rat) ≠ 300 :=
  ⟨by decide, by decide, by decide⟩

/-- C2 (amended): for every non-empty aggregation window, the summary's
count equals the number of in-window samples and its avg is their
arithmetic mean, and min <= avg <= max always holds; min and max bound
every in-window temperature and equal the true extrema whenever the
in-window temperatures lie within the fold's sentinels (at most 200 for
min, at least -200 for max); temperatures outside that range are clamped
by the initialisers 200 and -200. -/
theorem c2_summary_stats (daily : Bool) (now : Nat) (store : List Sample)
    (stats : Stats) (h : generateSummary daily now store = .ok stats) :
    stats.cnt = (windowTemps daily now store).length ∧
    stats.avg = (windowTemps daily now store).sum / (stats.cnt : Rat) ∧
    stats.minT ≤ stats.avg ∧ stats.avg ≤ stats.maxT ∧
    (∀ t ∈ windowTemps daily now store, stats.minT ≤ t ∧ t ≤ stats.maxT) ∧
    ((∀ t ∈ windowTemps daily now store, t ≤ 200) →
      stats.minT ∈ windowTemps daily now store) ∧
    ((∀ t ∈ windowTemps daily now store, -200 ≤ t) →
      stats.maxT ∈ windowTemps daily now store) := by
  obtain ⟨h0, hw, hstats⟩ := generateSummary_ok_inv daily now store stats h
  subst hstats
  have hlen : (windowTemps daily now store).length ≠ 0 := fun hl =>
    hw (List.length_eq_zero.mp hl)
  have hlpos : (0 : Rat) < ((windowTemps daily now store).length : Rat) := by
    exact_mod_cast Nat.pos_of_ne_zero hlen
  refine ⟨rfl, rfl, ?_, ?_, ?_, ?_, ?_⟩
  · show foldMin 200 (windowTemps daily now store) ≤
      (windowTemps daily now store).sum /
        (((windowTemps daily now store).length : Nat) : Rat)
    rw [le_div_iff₀ hlpos]
    calc foldMin 200 (windowTemps daily now store) *
          ((windowTemps daily now store).length : Rat)
        = ((windowTemps daily now store).length : Rat) *
          foldMin 200 (windowTemps daily now store) := by ring
      _ ≤ (windowTemps daily now store).sum :=
          length_mul_le_sum _ _ (foldMin_le_mem _ 200)
  · show (windowTemps daily now store).sum /
        (((windowTemps daily now store).length : Nat) : Rat) ≤
      foldMax (-200) (windowTemps daily now store)
    rw [div_le_iff₀ hlpos]
    calc (windowTemps daily now store).sum
        ≤ ((windowTemps daily now store).length : Rat) *
          foldMax (-200) (windowTemps daily now store) :=
          sum_le_length_mul _ _ (foldMax_mem_le _ (-200))
      _ = foldMax (-200) (windowTemps daily now store) *
          ((windowTemps daily now store).length : Rat) := by ring
  · intro t ht
    exact ⟨foldMin_le_mem _ 200 t ht, foldMax_mem_le _ (-200) t ht⟩
  · intro hub
    rcases foldMin_attained (windowTemps daily now store) 200 with heq | hmem
    · obtain ⟨t0, ht0⟩ := List.exists_mem_of_ne_nil _ hw
      have h1 : foldMin 200 (windowTemps daily now store) ≤ t0 :=
        foldMin_le_mem _ 200 t0 ht0
      have h2 : t0 ≤ 200 := hub t0 ht0
      have h3 : t0 = 200 := le_antisymm h2 (by rw [← heq]; exact h1)
      show foldMin 200 (windowTemps daily now store) ∈ windowTemps daily now store
      rw [heq, ← h3]
      exact ht0
    · exact hmem
  · intro hlb
    rcases foldMax_attained (windowTemps daily now store) (-200) with heq | hmem
    · obtain ⟨t0, ht0⟩ := List.exists_mem_of_ne_nil _ hw
      have h1 : t0 ≤ foldMax (-200) (windowTemps daily now store) :=
        foldMax_mem_le _ (-200) t0 ht0
      have h2 : (-200 : Rat) ≤ t0 := hlb t0 ht0
      have h3 : t0 = -200 := le_antisymm (by rw [← heq]; exact h1) h2
      show foldMax (-200) (windowTemps daily now store) ∈ windowTemps daily now store
      rw [heq, ← h3]
      exact ht0
    · exact hmem

/-- Witness for C2 at a concrete daily window holding one sample. -/
theorem c2_summary_stats_witness :
    (⟨1, 25, 25, 25, "Stable"⟩ : Stats).cnt =
      (windowTemps true 100000 [⟨70200, 25⟩]).length :=
  (c2_summary_stats true 100000 [⟨70200, 25⟩] ⟨1, 25, 25, 25, "Stable"⟩
    (by decide)).1

theorem okStats_trend (daily : Bool) (now : Nat) (store : List Sample) :
    ((okStats daily now store).maxT - (okStats daily now store).minT < 1 →
        (okStats daily now store).trend = "Stable") ∧
    (1 ≤ (okStats daily now store).maxT - (okStats daily now store).minT →
        (okStats daily now store).maxT - (okStats daily now store).minT < 3 →
        (okStats daily now store).trend = "Mild") ∧
    (3 ≤ (okStats daily now store).maxT - (okStats daily now store).minT →
        (okStats daily now store).trend = "Variable") := by
  unfold okStats
  dsimp only
  split_ifs with h1 h2
  · exact ⟨fun _ => rfl, fun hge _ => absurd h1 (not_lt.mpr hge),
      fun hge => absurd h1 (by linarith)⟩
  · exact ⟨fun hlt => absurd hlt h1, fun _ _ => rfl,
      fun hge => absurd h2 (not_lt.mpr hge)⟩
  · exact ⟨fun hlt => absurd hlt h1, fun _ hlt => absurd hlt h2, fun _ => rfl⟩

/-- C8: for every non-empty window the trend label follows the spread of
the reported extrema — Stable below 1, Mild from 1 up to below 3,
Variable from 3 — together with the three concrete spreads 0.5, 2.0 and
5.0 from the claim. -/
theorem c8_trend_thresholds :
    (∀ daily now store stats, generateSummary daily now store = .ok stats →
      ((stats.maxT - stats.minT < 1 → stats.trend = "Stable") ∧
        (1 ≤ stats.maxT - stats.minT → stats.maxT - stats.minT < 3 →
          stats.trend = "Mild") ∧
        (3 ≤ stats.maxT - stats.minT → stats.trend = "Variable"))) ∧
    generateSummary true 100000 [⟨70200, 20⟩, ⟨70260, 41/2⟩] =
      .ok ⟨2, 81/4, 20, 41/2, "Stable"⟩ ∧
    generateSummary true 100000 [⟨70200, 20⟩, ⟨70260, 22⟩] =
      .ok ⟨2, 21, 20, 22, "Mild"⟩ ∧
    generateSummary true 100000 [⟨70200, 20⟩, ⟨70260, 25⟩] =
      .ok ⟨2, 45/2, 20, 25, "Variable"⟩ := by
  refine ⟨?_, by decide, by decide, by decide⟩
  intro daily now store stats h
  obtain ⟨h0, hw, hstats⟩ := generateSummary_ok_inv daily now store stats h
  subst hstats
  exact okStats_trend daily now store

/-- Witness for C8: the concrete Stable window, with its spread fact
discharged numerically. -/
theorem c8_trend_thresholds_witness :
    (⟨2, 81/4, 20, 41/2, "Stable"⟩ : Stats).trend = "Stable" :=
  (c8_trend_thresholds.1 true 100000 [⟨70200, 20⟩, ⟨70260, 41/2⟩] _
    c8_trend_thresholds.2.1).1 (by norm_num)

/-- C9: whenever zero samples qualify for the requested window, the daily
summary's no-data message differs from the weekly one's, and the
`/summary` route still answers `200 OK` with a structured body rather
than an HTTP error status. -/
theorem c9_no_data_distinct (now now2 : Nat) (store store2 : List Sample)
    (e e2 : String) (hd : generateSummary true now store = .err e)
    (hw : generateSummary false now2 store2 = .err e2) :
    e ≠ e2 ∧ (summaryRoute now store).1 = "200 OK" := by
  have h1 := generateSummary_err_inv true now store e hd
  have h2 := generateSummary_err_inv false now2 store2 e2 hw
  constructor
  · rcases h1 with rfl | rfl <;> rcases h2 with rfl | rfl <;> decide
  · rfl

/-- Witness for C9: the empty store empties both windows. -/
theorem c9_no_data_distinct_witness :
    ("No data" : String) ≠ "No weekly data" ∧
      (summaryRoute 0 []).1 = "200 OK" :=
  c9_no_data_distinct 0 0 [] [] "No data" "No weekly data" (by decide) (by decide)

theorem inPeriod_daily_iff (now localT : Nat) :
    inPeriod true now localT = true ↔
      (now - now % 86400 ≤ localT ∧ localT < now - now % 86400 + 86400) := by
  have hc : cutoff true now = now - now % 86400 := rfl
  simp only [inPeriod, hc, Bool.not_true, Bool.false_or, Bool.and_eq_true,
    decide_eq_true_eq]
  omega

/-- C3: with `now` a fixed local timestamp (at least one day after the
epoch and inside the `uint32` range so the boundary sample is
expressible), the daily selection of both the filtered-data route and the
daily summary is exactly the half-open window from `now - now % 86400`
inclusive to `now - now % 86400 + 86400` exclusive over local timestamps
`epoch + TZ_OFFSET_SECONDS`: membership is characterised by that
interval, the sample sitting exactly on the lower boundary is kept by
both, and the sample one second before it is dropped by both. -/
theorem c3_daily_window (now : Nat) (hlow : 86400 ≤ now) (hup : now < U32) :
    (∀ store s, s ∈ getFilteredData true now store ↔
      (s ∈ store ∧ now - now % 86400 ≤ localOf s ∧
        localOf s < now - now % 86400 + 86400)) ∧
    getFilteredData true now
        [⟨now - now % 86400 - TZ_OFFSET_SECONDS, 25⟩] =
      [⟨now - now % 86400 - TZ_OFFSET_SECONDS, 25⟩] ∧
    getFilteredData true now
        [⟨now - now % 86400 - TZ_OFFSET_SECONDS - 1, 25⟩] = [] ∧
    generateSummary true now [⟨now - now % 86400 - TZ_OFFSET_SECONDS, 25⟩] =
      .ok ⟨1, 25, 25, 25, "Stable"⟩ ∧
    generateSummary true now
        [⟨now - now % 86400 - TZ_OFFSET_SECONDS - 1, 25⟩] =
      .err "No samples today" := by
  have hU : U32 = 2 ^ 32 := rfl
  have hTZ : TZ_OFFSET_SECONDS = 19800 := rfl
  have hB : 86400 ≤ now - now % 86400 := by omega
  have hloc1 : localOf ⟨now - now % 86400 - TZ_OFFSET_SECONDS, 25⟩ =
      now - now % 86400 := by
    simp only [localOf, hTZ, hU]
    omega
  have hloc0 : localOf ⟨now - now % 86400 - TZ_OFFSET_SECONDS - 1, 25⟩ =
      now - now % 86400 - 1 := by
    simp only [localOf, hTZ, hU]
    omega
  have hp1 : inPeriod true now
      (localOf ⟨now - now % 86400 - TZ_OFFSET_SECONDS, 25⟩) = true := by
    rw [hloc1, inPeriod_daily_iff]
    omega
  have hp0 : inPeriod true now
      (localOf ⟨now - now % 86400 - TZ_OFFSET_SECONDS - 1, 25⟩) = false := by
    rw [hloc0, Bool.eq_false_iff]
    intro hcon
    rw [inPeriod_daily_iff] at hcon
    omega
  have hwin1 : windowTemps true now
      [⟨now - now % 86400 - TZ_OFFSET_SECONDS, 25⟩] = [25] := by
    simp [windowTemps, List.filter_cons, hp1]
  have hwin0 : windowTemps true now
      [⟨now - now % 86400 - TZ_OFFSET_SECONDS - 1, 25⟩] = [] := by
    simp [windowTemps, List.filter_cons, hp0]
  refine ⟨?_, ?_, ?_, ?_, ?_⟩
  · intro store s
    rw [getFilteredData, List.mem_filter, inPeriod_daily_iff]
  · simp [getFilteredData, List.filter_cons, hp1]
  · simp [getFilteredData, List.filter_cons, hp0]
  · rw [generateSummary_eq_ok true now _ (by simp) (by rw [hwin1]; simp)]
    simp only [okStats, hwin1]
    decide
  · rw [generateSummary_eq_err true now _ hwin0]
    rfl

/-- Witness for C3 at the concrete local time 100000. -/
theorem c3_daily_window_witness :
    (86400 ≤ 100000 ∧ 100000 < U32) ∧
    getFilteredData true 100000
        [⟨100000 - 100000 % 86400 - TZ_OFFSET_SECONDS, 25⟩] =
      [⟨100000 - 100000 % 86400 - TZ_OFFSET_SECONDS, 25⟩] ∧
    getFilteredData true 100000
        [⟨100000 - 100000 % 86400 - TZ_OFFSET_SECONDS - 1, 25⟩] = [] :=
  ⟨⟨by decide, by decide⟩,
    (c3_daily_window 100000 (by decide) (by decide)).2.1,
    (c3_daily_window 100000 (by decide) (by decide)).2.2.1⟩

/- ===================== Clock service ============= -/

theorem foldl_clockStep_failures (st : ClockState) (evs : List (Nat × Nat))
    (h : ∀ ev ∈ evs, ev.2 = 0) : evs.foldl clockStep st = st := by
  induction evs generalizing st with
  | nil => rfl
  | cons e es ih =>
      have he : e.2 = 0 := h e (List.mem_cons_self _ _)
      have hstep : clockStep st e = st := by simp [clockStep, he]
      rw [List.foldl_cons, hstep]
      exact ih st (fun ev hev => h ev (List.mem_cons_of_mem _ hev))

/-- C6: `getEpochUTC` returns the tick counter divided into seconds while
the clock has never been synced (a trace of only failed exchanges keeps
the boot state), and after a successful exchange that stored a nonzero
time `t0` at a nonzero tick `m0` (any sync after the boot instant),
followed by only failed exchanges, it returns `t0 + (ms - m0) / 1000` —
the synced time plus the elapsed ticks converted to seconds — whenever
the tick counter and the second count do not wrap. -/
theorem c6_getEpochUTC (evs : List (Nat × Nat)) (ms m0 t0 : Nat)
    (pre post : List (Nat × Nat)) :
    ((∀ ev ∈ evs, ev.2 = 0) → clockRun evs = ⟨0, 0⟩ ∧
      getEpochUTC (clockRun evs) ms = ms / 1000) ∧
    (t0 ≠ 0 → m0 ≠ 0 → (∀ ev ∈ post, ev.2 = 0) →
      m0 ≤ ms → ms < U32 → t0 + (ms - m0) / 1000 < U32 →
      getEpochUTC (clockRun (pre ++ (m0, t0) :: post)) ms =
        t0 + (ms - m0) / 1000) := by
  constructor
  · intro hfail
    have hrun : clockRun evs = ⟨0, 0⟩ :=
      foldl_clockStep_failures ⟨0, 0⟩ evs hfail
    exact ⟨hrun, by rw [hrun]; simp [getEpochUTC]⟩
  · intro ht0 hm0 hfail hle hup hbound
    have hrun : clockRun (pre ++ (m0, t0) :: post) = ⟨t0, m0⟩ := by
      have h1 : clockRun (pre ++ (m0, t0) :: post) =
          post.foldl clockStep (clockStep (clockRun pre) (m0, t0)) := by
        simp [clockRun, List.foldl_append]
      have h2 : clockStep (clockRun pre) (m0, t0) = ⟨t0, m0⟩ := by
        simp [clockStep, ht0]
      rw [h1, h2, foldl_clockStep_failures _ post hfail]
    rw [hrun]
    have hcond : ¬((⟨t0, m0⟩ : ClockState).lastNtpSyncSec = 0 ∨
        (⟨t0, m0⟩ : ClockState).ntpSyncMillis = 0) := by
      push_neg
      exact ⟨ht0, hm0⟩
    rw [getEpochUTC, if_neg hcond]
    have helapsed : (ms + U32 - (⟨t0, m0⟩ : ClockState).ntpSyncMillis) % U32 =
        ms - m0 := by
      show (ms + U32 - m0) % U32 = ms - m0
      simp only [U32] at hup ⊢
      omega
    rw [helapsed]
    exact Nat.mod_eq_of_lt hbound

/-- Witness for C6: a never-synced trace, and a synced trace read one
minute after the sync. -/
theorem c6_getEpochUTC_witness :
    (clockRun [(500, 0), (1000, 0)] = ⟨0, 0⟩ ∧
      getEpochUTC (clockRun [(500, 0), (1000, 0)]) 5000 = 5000 / 1000) ∧
    getEpochUTC (clockRun ([(400, 0)] ++ (1000, 900) :: [])) 61000 =
      900 + (61000 - 1000) / 1000 :=
  ⟨(c6_getEpochUTC [(500, 0), (1000, 0)] 5000 0 0 [] []).1 (by decide),
    (c6_getEpochUTC [] 61000 1000 900 [(400, 0)] []).2 (by decide) (by decide)
      (by decide) (by decide) (by decide) (by decide)⟩

/-- C7 counterexample: a successful NTP exchange that returns a nonzero
time behind the current estimate steps `getEpochUTC` backwards — at tick
600000 the synced clock (synced to 1000 at tick 500) reads 1599, but a
successful sync returning 5 drops the reading to 5, so `nowUtc` is not
monotone across successful syncs even though no counter wrapped. -/
theorem c7_sync_can_decrease_clock :
    clockRun [(500, 1000)] = ⟨1000, 500⟩ ∧
    (600000, 5).2 ≠ 0 ∧
    getEpochUTC (clockRun [(500, 1000)]) 600000 = 1599 ∧
    getEpochUTC (clockRun [(500, 1000), (600000, 5)]) 600000 = 5 ∧
    getEpochUTC (clockRun [(500, 1000), (600000, 5)]) 600000 <
      getEpochUTC (clockRun [(500, 1000)]) 600000 :=
  ⟨by decide, by decide, by decide, by decide, by decide⟩

/-- C7 (amended): the clock state is updated only by successful exchanges
— a failed exchange leaves it unchanged — and, while the state is
unchanged and neither the tick counter nor the second count wraps,
`getEpochUTC` is monotone non-decreasing; across a successful exchange it
stays monotone provided the received time is at least the current
estimate.  The code does not enforce that proviso, so a successful sync
returning an earlier time decreases `getEpochUTC` (see the
counterexample). -/
theorem c7_clock_monotonicity :
    (∀ st m, clockStep st (m, 0) = st) ∧
    (∀ st m m2, m ≤ m2 → m2 < U32 → st.ntpSyncMillis ≤ m →
      st.lastNtpSyncSec + (m2 - st.ntpSyncMillis) / 1000 < U32 →
      getEpochUTC st m ≤ getEpochUTC st m2) ∧
    (∀ st m t m2, t ≠ 0 → m ≠ 0 → getEpochUTC st m ≤ t →
      m ≤ m2 → m2 < U32 → t + (m2 - m) / 1000 < U32 →
      getEpochUTC st m ≤ getEpochUTC (clockStep st (m, t)) m2) := by
  have hU : U32 = 2 ^ 32 := rfl
  refine ⟨?_, ?_, ?_⟩
  · intro st m
    simp [clockStep]
  · intro st m m2 h12 hup hsyn hbound
    by_cases hcond : st.lastNtpSyncSec = 0 ∨ st.ntpSyncMillis = 0
    · rw [getEpochUTC, if_pos hcond, getEpochUTC, if_pos hcond]
      exact Nat.div_le_div_right h12
    · rw [getEpochUTC, if_neg hcond, getEpochUTC, if_neg hcond]
      have he1 : (m + U32 - st.ntpSyncMillis) % U32 = m - st.ntpSyncMillis := by
        simp only [U32] at hup ⊢
        omega
      have he2 : (m2 + U32 - st.ntpSyncMillis) % U32 = m2 - st.ntpSyncMillis := by
        simp only [U32] at hup ⊢
        omega
      rw [he1, he2]
      have hle : st.lastNtpSyncSec + (m - st.ntpSyncMillis) / 1000 ≤
          st.lastNtpSyncSec + (m2 - st.ntpSyncMillis) / 1000 :=
        Nat.add_le_add_left
          (Nat.div_le_div_right (Nat.sub_le_sub_right h12 _)) _
      rw [Nat.mod_eq_of_lt (lt_of_le_of_lt hle hbound),
        Nat.mod_eq_of_lt hbound]
      exact hle
  · intro st m t m2 ht hm hest h12 hup hbound
    have hstep : clockStep st (m, t) = ⟨t, m⟩ := by simp [clockStep, ht]
    rw [hstep]
    have hcond : ¬((⟨t, m⟩ : ClockState).lastNtpSyncSec = 0 ∨
        (⟨t, m⟩ : ClockState).ntpSyncMillis = 0) := by
      push_neg
      exact ⟨ht, hm⟩
    have he : (m2 + U32 - (⟨t, m⟩ : ClockState).ntpSyncMillis) % U32 =
        m2 - m := by
      show (m2 + U32 - m) % U32 = m2 - m
      simp only [U32] at hup ⊢
      omega
    have hrhs : getEpochUTC ⟨t, m⟩ m2 = t + (m2 - m) / 1000 := by
      rw [getEpochUTC, if_neg hcond, he, Nat.mod_eq_of_lt hbound]
    rw [hrhs]
    exact le_trans hest (Nat.le_add_right _ _)

/-- Witness for C7: monotone reads on a fixed synced state, and a
monotone step across a sync whose received time is ahead of the
estimate. -/
theorem c7_clock_monotonicity_witness :
    getEpochUTC ⟨1000, 500⟩ 600000 ≤ getEpochUTC ⟨1000, 500⟩ 700000 ∧
    getEpochUTC ⟨1000, 500⟩ 600000 ≤
      getEpochUTC (clockStep ⟨1000, 500⟩ (600000, 2000)) 700000 :=
  ⟨c7_clock_monotonicity.2.1 ⟨1000, 500⟩ 600000 700000 (by decide) (by decide)
      (by decide) (by decide),
    c7_clock_monotonicity.2.2 ⟨1000, 500⟩ 600000 2000 700000 (by decide)
      (by decide) (by decide) (by decide) (by decide) (by decide)⟩

/- ===================== Persistence: format and parse ============= -/

theorem digitChar_props (d : Nat) (hd : d < 10) :
    (digitChar d).isDigit = true ∧ isSpace (digitChar d) = false ∧
      digitChar d ≠ ',' ∧ digitChar d ≠ '-' ∧ digitChar d ≠ '+' ∧
      digitChar d ≠ '\n' ∧ digitChar d ≠ '.' ∧ digitVal (digitChar d) = d := by
  interval_cases d <;> decide

theorem natDecimalAux_digits (fuel : Nat) :
    ∀ n, ∀ c ∈ natDecimalAux fuel n, ∃ d, d < 10 ∧ c = digitChar d := by
  induction fuel with
  | zero => intro n c hc; simp [natDecimalAux] at hc
  | succ fuel ih =>
      intro n c hc
      simp only [natDecimalAux] at hc
      by_cases h10 : n < 10
      · rw [if_pos h10] at hc
        have := List.mem_singleton.mp hc
        exact ⟨n, h10, this⟩
      · rw [if_neg h10] at hc
        rcases List.mem_append.mp hc with hc1 | hc2
        · exact ih (n / 10) c hc1
        · exact ⟨n % 10, Nat.mod_lt _ (by omega), List.mem_singleton.mp hc2⟩

theorem natDecimal_digits (n : Nat) :
    ∀ c ∈ natDecimal n, ∃ d, d < 10 ∧ c = digitChar d :=
  natDecimalAux_digits (n + 1) n

theorem digitsVal_append_digit (a : List Char) (c : Char) :
    digitsVal (a ++ [c]) = digitsVal a * 10 + digitVal c := by
  simp [digitsVal, List.foldl_append]

theorem digitsVal_natDecimalAux (fuel : Nat) :
    ∀ n, n < fuel → digitsVal (natDecimalAux fuel n) = n := by
  induction fuel with
  | zero => intro n h; omega
  | succ fuel ih =>
      intro n h
      simp only [natDecimalAux]
      by_cases h10 : n < 10
      · rw [if_pos h10]
        have hdv := (digitChar_props n h10).2.2.2.2.2.2.2
        simp [digitsVal, hdv]
      · rw [if_neg h10, digitsVal_append_digit, ih (n / 10) (by omega),
          (digitChar_props (n % 10) (Nat.mod_lt _ (by omega))).2.2.2.2.2.2.2]
        omega

theorem digitsVal_natDecimal (n : Nat) : digitsVal (natDecimal n) = n :=
  digitsVal_natDecimalAux (n + 1) n (Nat.lt_succ_self n)

theorem natDecimal_ne_nil (n : Nat) : natDecimal n ≠ [] := by
  unfold natDecimal
  simp only [natDecimalAux]
  by_cases h10 : n < 10
  · simp [h10]
  · simp [h10]

theorem natDecimal_all_digit (n : Nat) :
    ∀ c ∈ natDecimal n, Char.isDigit c = true := by
  intro c hc
  obtain ⟨d, hd, rfl⟩ := natDecimal_digits n c hc
  exact (digitChar_props d hd).1

theorem natDecimal_not_space (n : Nat) :
    ∀ c ∈ natDecimal n, isSpace c = false := by
  intro c hc
  obtain ⟨d, hd, rfl⟩ := natDecimal_digits n c hc
  exact (digitChar_props d hd).2.1

theorem takeWhile_append_all {α : Type} (p : α → Bool) (a b : List α)
    (h : ∀ c ∈ a, p c = true) :
    (a ++ b).takeWhile p = a ++ b.takeWhile p := by
  induction a with
  | nil => rfl
  | cons x xs ih =>
      have hx := h x (List.mem_cons_self _ _)
      rw [List.cons_append, List.takeWhile_cons_of_pos hx,
        ih (fun c hc => h c (List.mem_cons_of_mem _ hc)), List.cons_append]

theorem dropWhile_append_all {α : Type} (p : α → Bool) (a b : List α)
    (h : ∀ c ∈ a, p c = true) :
    (a ++ b).dropWhile p = b.dropWhile p := by
  induction a with
  | nil => rfl
  | cons x xs ih =>
      have hx := h x (List.mem_cons_self _ _)
      rw [List.cons_append, List.dropWhile_cons_of_pos hx]
      exact ih (fun c hc => h c (List.mem_cons_of_mem _ hc))

theorem takeWhile_eq_self_all {α : Type} (p : α → Bool) (l : List α)
    (h : ∀ c ∈ l, p c = true) : l.takeWhile p = l := by
  have := takeWhile_append_all p l [] h
  simpa using this

theorem dropWhile_eq_nil_all {α : Type} (p : α → Bool) (l : List α)
    (h : ∀ c ∈ l, p c = true) : l.dropWhile p = [] := by
  have := dropWhile_append_all p l [] h
  simpa using this

theorem dropWhile_eq_self_all_neg {α : Type} (p : α → Bool) (l : List α)
    (h : ∀ c ∈ l, p c = false) : l.dropWhile p = l := by
  cases l with
  | nil => rfl
  | cons x xs =>
      rw [List.dropWhile_cons_of_neg
        (by simp [h x (List.mem_cons_self _ _)])]

theorem trimChars_eq_self (l : List Char) (h : ∀ c ∈ l, isSpace c = false) :
    trimChars l = l := by
  unfold trimChars
  rw [dropWhile_eq_self_all_neg _ _ h,
    dropWhile_eq_self_all_neg _ _ (fun c hc => h c (List.mem_reverse.mp hc)),
    List.reverse_reverse]

theorem commaIdx_append (a b : List Char) (h : ',' ∉ a) :
    commaIdx (a ++ ',' :: b) = some a.length := by
  induction a with
  | nil => simp [commaIdx]
  | cons x xs ih =>
      have hx : ¬(x = ',') := fun he => h (he ▸ List.mem_cons_self _ _)
      rw [List.cons_append]
      simp only [commaIdx, if_neg hx,
        ih (fun hm => h (List.mem_cons_of_mem _ hm))]
      simp

theorem twoDec_all_digit (k : Nat) (hk : k < 100) :
    ∀ c ∈ twoDec k, Char.isDigit c = true := by
  intro c hc
  unfold twoDec at hc
  rcases List.mem_cons.mp hc with rfl | hc2
  · exact (digitChar_props (k / 10) (by omega)).1
  · have := List.mem_singleton.mp hc2
    subst this
    exact (digitChar_props (k % 10) (by omega)).1

theorem digitsVal_twoDec (k : Nat) (hk : k < 100) :
    digitsVal (twoDec k) = k := by
  have h1 := (digitChar_props (k / 10) (by omega)).2.2.2.2.2.2.2
  have h2 := (digitChar_props (k % 10) (by omega)).2.2.2.2.2.2.2
  simp only [twoDec, digitsVal, List.foldl_cons, List.foldl_nil, h1, h2]
  omega

theorem fmt2_mem (t : Rat) :
    ∀ c ∈ fmt2 t, c = '-' ∨ c = '.' ∨ ∃ d, d < 10 ∧ c = digitChar d := by
  intro c hc
  simp only [fmt2] at hc
  have hbody : ∀ x ∈ natDecimal ((round2 t).natAbs / 100) ++
      '.' :: twoDec ((round2 t).natAbs % 100),
      x = '-' ∨ x = '.' ∨ ∃ d, d < 10 ∧ x = digitChar d := by
    intro x hx
    rcases List.mem_append.mp hx with h1 | h2
    · obtain ⟨d, hd, rfl⟩ := natDecimal_digits _ x h1
      exact Or.inr (Or.inr ⟨d, hd, rfl⟩)
    · rcases List.mem_cons.mp h2 with rfl | h3
      · exact Or.inr (Or.inl rfl)
      · unfold twoDec at h3
        rcases List.mem_cons.mp h3 with rfl | h4
        · exact Or.inr (Or.inr ⟨_, by omega, rfl⟩)
        · have := List.mem_singleton.mp h4
          subst this
          exact Or.inr (Or.inr ⟨_, by omega, rfl⟩)
  by_cases hneg : round2 t < 0
  · rw [if_pos hneg] at hc
    rcases List.mem_cons.mp hc with rfl | hc2
    · exact Or.inl rfl
    · exact hbody c hc2
  · rw [if_neg hneg] at hc
    exact hbody c hc

theorem csvLineBody_chars (e : Nat) (t : Rat) :
    ∀ c ∈ csvLineBody e t, isSpace c = false ∧ c ≠ '\n' := by
  intro c hc
  unfold csvLineBody at hc
  rcases List.mem_append.mp hc with h1 | h2
  · obtain ⟨d, hd, rfl⟩ := natDecimal_digits e c h1
    exact ⟨(digitChar_props d hd).2.1, (digitChar_props d hd).2.2.2.2.2.1⟩
  · rcases List.mem_cons.mp h2 with rfl | h3
    · exact ⟨by decide, by decide⟩
    · rcases fmt2_mem t c h3 with rfl | rfl | ⟨d, hd, rfl⟩
      · exact ⟨by decide, by decide⟩
      · exact ⟨by decide, by decide⟩
      · exact ⟨(digitChar_props d hd).2.1, (digitChar_props d hd).2.2.2.2.2.1⟩

theorem toIntU32_natDecimal (e : Nat) :
    toIntU32 (natDecimal e) = min e (2 ^ 31 - 1) := by
  obtain ⟨c0, cs, hshape⟩ : ∃ c0 cs, natDecimal e = c0 :: cs := by
    rcases hd : natDecimal e with _ | ⟨c0, cs⟩
    · exact absurd hd (natDecimal_ne_nil e)
    · exact ⟨c0, cs, rfl⟩
  obtain ⟨d, hd, hc0⟩ := natDecimal_digits e c0 (hshape ▸ List.mem_cons_self _ _)
  simp only [toIntU32, atolLong, parseSignedInt,
    dropWhile_eq_self_all_neg _ _ (natDecimal_not_space e)]
  rw [hshape, List.head?_cons]
  rw [if_neg (by simp [hc0, (digitChar_props d hd).2.2.2.1]),
    if_neg (by simp [hc0, (digitChar_props d hd).2.2.2.2.1])]
  rw [← hshape, takeWhile_eq_self_all _ _ (natDecimal_all_digit e),
    digitsVal_natDecimal]
  by_cases hbig : ((e : Nat) : Int) > LONG_MAX
  · rw [clampLong, if_pos hbig]
    have h1 : LONG_MAX % (U32 : Int) = LONG_MAX :=
      Int.emod_eq_of_lt (by decide) (by decide)
    have h2 : min e (2 ^ 31 - 1) = 2 ^ 31 - 1 := by
      simp only [LONG_MAX] at hbig
      omega
    rw [h1, h2]
    decide
  · rw [clampLong, if_neg hbig,
      if_neg (by simp only [LONG_MIN]; omega)]
    have hsmall : e < U32 := by
      simp only [LONG_MAX] at hbig
      simp only [U32]
      omega
    have h1 : ((e : Nat) : Int) % (U32 : Int) = e :=
      Int.emod_eq_of_lt (by positivity) (by exact_mod_cast hsmall)
    have h2 : min e (2 ^ 31 - 1) = e := by
      simp only [LONG_MAX] at hbig
      omega
    rw [h1, h2]
    exact Int.toNat_natCast e

theorem applyExp_nil (x : Rat) : applyExp x [] = x := by
  simp [applyExp]

theorem parseUnsignedRat_body (m k : Nat) (hk : k < 100) :
    parseUnsignedRat (natDecimal m ++ '.' :: twoDec k) =
      ((m : Rat) + (k : Rat) / 100, []) := by
  have hdig := natDecimal_all_digit m
  simp only [parseUnsignedRat,
    takeWhile_append_all _ _ _ hdig, dropWhile_append_all _ _ _ hdig,
    List.takeWhile_cons_of_neg (p := Char.isDigit) (a := '.') (by decide),
    List.dropWhile_cons_of_neg (p := Char.isDigit) (a := '.') (by decide)]
  rw [if_pos (by rw [List.head?_cons])]
  simp only [List.drop_succ_cons, List.drop_zero,
    takeWhile_eq_self_all _ _ (twoDec_all_digit k hk),
    dropWhile_eq_nil_all _ _ (twoDec_all_digit k hk),
    digitsVal_twoDec k hk, List.append_nil, digitsVal_natDecimal]
  have hlen : (twoDec k).length = 2 := rfl
  rw [hlen]
  norm_num

theorem body_not_space (m k : Nat) (hk : k < 100) :
    ∀ c ∈ natDecimal m ++ '.' :: twoDec k, isSpace c = false := by
  intro c hc
  rcases List.mem_append.mp hc with h1 | h2
  · exact natDecimal_not_space m c h1
  · rcases List.mem_cons.mp h2 with rfl | h3
    · decide
    · unfold twoDec at h3
      rcases List.mem_cons.mp h3 with rfl | h4
      · exact (digitChar_props (k / 10) (by omega)).2.1
      · have := List.mem_singleton.mp h4
        subst this
        exact (digitChar_props (k % 10) (by omega)).2.1

theorem nat_split_100 (m : Nat) :
    ((m / 100 : Nat) : Rat) + ((m % 100 : Nat) : Rat) / 100 = (m : Rat) / 100 := by
  have h : (m / 100) * 100 + m % 100 = m := by omega
  field_simp
  exact_mod_cast h

theorem parseFloatRat_fmt2 (t : Rat) :
    parseFloatRat (fmt2 t) = (round2 t : Rat) / 100 := by
  have hk : (round2 t).natAbs % 100 < 100 := Nat.mod_lt _ (by omega)
  have hbody := parseUnsignedRat_body ((round2 t).natAbs / 100)
    ((round2 t).natAbs % 100) hk
  have hsplit := nat_split_100 (round2 t).natAbs
  by_cases hneg : round2 t < 0
  · have hfmt : fmt2 t = '-' :: (natDecimal ((round2 t).natAbs / 100) ++
        '.' :: twoDec ((round2 t).natAbs % 100)) := by
      simp only [fmt2, if_pos hneg]
    rw [hfmt]
    simp only [parseFloatRat, List.dropWhile_cons_of_neg
      (p := isSpace) (a := '-') (by decide), List.head?_cons]
    rw [if_pos trivial]
    simp only [List.drop_succ_cons, List.drop_zero,
      dropWhile_eq_self_all_neg _ _ (body_not_space _ _ hk), hbody,
      applyExp_nil]
    rw [hsplit]
    have hcast : (((round2 t).natAbs : Nat) : Rat) = -((round2 t : Int) : Rat) := by
      rw [Int.cast_natAbs]
      exact_mod_cast abs_of_neg hneg
    rw [hcast]
    ring
  · have hfmt : fmt2 t = natDecimal ((round2 t).natAbs / 100) ++
        '.' :: twoDec ((round2 t).natAbs % 100) := by
      simp only [fmt2, if_neg hneg]
    obtain ⟨c0, cs, hshape⟩ : ∃ c0 cs,
        natDecimal ((round2 t).natAbs / 100) = c0 :: cs := by
      rcases hd : natDecimal ((round2 t).natAbs / 100) with _ | ⟨c0, cs⟩
      · exact absurd hd (natDecimal_ne_nil _)
      · exact ⟨c0, cs, rfl⟩
    obtain ⟨d, hd, hc0⟩ := natDecimal_digits _ c0
      (hshape ▸ List.mem_cons_self _ _)
    rw [hfmt]
    simp only [parseFloatRat,
      dropWhile_eq_self_all_neg _ _ (body_not_space _ _ hk)]
    rw [hshape, List.cons_append, List.head?_cons,
      if_neg (by simp [hc0, (digitChar_props d hd).2.2.2.1]),
      if_neg (by simp [hc0, (digitChar_props d hd).2.2.2.2.1]),
      ← List.cons_append, ← hshape, hbody]
    simp only [applyExp_nil]
    rw [hsplit]
    have hcast : (((round2 t).natAbs : Nat) : Rat) = ((round2 t : Int) : Rat) := by
      rw [Int.cast_natAbs]
      exact_mod_cast abs_of_nonneg (not_lt.mp hneg)
    rw [hcast]

theorem take_append_len {α : Type} (a b : List α) :
    (a ++ b).take a.length = a := by
  induction a with
  | nil => rfl
  | cons y ys ih => simp [ih]

theorem drop_append_cons {α : Type} (a : List α) (x : α) (b : List α) :
    (a ++ x :: b).drop (a.length + 1) = b := by
  induction a with
  | nil => simp
  | cons y ys ih => simp [ih]

theorem parseLine_csvLineBody (e : Nat) (t : Rat) :
    parseLine (csvLineBody e t) =
      some (min e (2 ^ 31 - 1), (round2 t : Rat) / 100) := by
  have hchars : ∀ c ∈ csvLineBody e t, isSpace c = false :=
    fun c hc => (csvLineBody_chars e t c hc).1
  have hnotmem : ',' ∉ natDecimal e := by
    intro hmem
    obtain ⟨d, hd, heq⟩ := natDecimal_digits e ',' hmem
    exact (digitChar_props d hd).2.2.1 heq.symm
  have hidx : commaIdx (trimChars (csvLineBody e t)) =
      some (natDecimal e).length := by
    rw [trimChars_eq_self _ hchars]
    unfold csvLineBody
    exact commaIdx_append _ _ hnotmem
  simp only [parseLine, hidx]
  rw [if_neg (by simpa using natDecimal_ne_nil e)]
  rw [trimChars_eq_self _ hchars]
  unfold csvLineBody
  rw [take_append_len, drop_append_cons, toIntU32_natDecimal e,
    parseFloatRat_fmt2]

theorem splitNlGo_line (line : List Char) (h : '\n' ∉ line) :
    ∀ cur rest, splitNlGo cur (line ++ '\n' :: rest) =
      (cur ++ line) :: splitNl rest := by
  induction line with
  | nil =>
      intro cur rest
      show splitNlGo cur ('\n' :: rest) = (cur ++ []) :: splitNl rest
      rw [splitNlGo, if_pos rfl, List.append_nil, splitNl]
  | cons x xs ih =>
      intro cur rest
      have hx : ¬(x = '\n') := fun he => h (he ▸ List.mem_cons_self _ _)
      show splitNlGo cur (x :: (xs ++ '\n' :: rest)) = _
      rw [splitNlGo, if_neg hx,
        ih (fun hm => h (List.mem_cons_of_mem _ hm)) (cur ++ [x]) rest]
      simp

theorem splitNl_lines (lines : List (List Char)) (h : ∀ l ∈ lines, '\n' ∉ l) :
    splitNl ((lines.map fun l => l ++ ['\n']).flatten) = lines := by
  induction lines with
  | nil => rfl
  | cons l ls ih =>
      simp only [List.map_cons, List.flatten_cons]
      have harr : (l ++ ['\n']) ++ ((ls.map fun l => l ++ ['\n']).flatten) =
          l ++ '\n' :: ((ls.map fun l => l ++ ['\n']).flatten) := by simp
      rw [harr, splitNl, if_neg (by simp)]
      rw [splitNlGo_line l (h l (List.mem_cons_self _ _)) [] _]
      rw [List.nil_append, ih (fun l2 hl2 => h l2 (List.mem_cons_of_mem _ hl2))]

theorem splitNl_saveAll (store : List Sample) :
    splitNl (saveAllToFS store) =
      store.map fun s => csvLineBody s.epoch s.tempC := by
  have hnonl : ∀ l ∈ store.map (fun s => csvLineBody s.epoch s.tempC),
      '\n' ∉ l := by
    intro l hl
    obtain ⟨s, hs, rfl⟩ := List.mem_map.mp hl
    intro hmem
    exact (csvLineBody_chars s.epoch s.tempC '\n' hmem).2 rfl
  have hmap : store.map (fun s => csvLine s.epoch s.tempC) =
      (store.map fun s => csvLineBody s.epoch s.tempC).map
        fun l => l ++ ['\n'] := by
    rw [List.map_map]
    rfl
  unfold saveAllToFS
  rw [hmap, splitNl_lines _ hnonl]

theorem loadCSVLines_map (store : List Sample) :
    ∀ acc : List Sample, acc.length + store.length ≤ MAX_SAMPLES →
    loadCSVLines (store.map fun s => csvLineBody s.epoch s.tempC) acc =
      acc ++ store.map round2Sample := by
  induction store with
  | nil => intro acc _; simp [loadCSVLines]
  | cons s rest ih =>
      intro acc hlen
      have hM : MAX_SAMPLES = 2000 := rfl
      simp only [List.map_cons, loadCSVLines]
      rw [if_pos (by simp only [List.length_cons] at hlen; omega)]
      rw [parseLine_csvLineBody s.epoch s.tempC]
      have hlen2 : (acc ++ [(⟨min s.epoch (2 ^ 31 - 1),
          (round2 s.tempC : Rat) / 100⟩ :
          Sample)]).length + rest.length ≤ MAX_SAMPLES := by
        simp only [List.length_append, List.length_singleton,
          List.length_cons, List.length_nil] at hlen ⊢
        omega
      show loadCSVLines (List.map (fun s => csvLineBody s.epoch s.tempC) rest)
          (acc ++ [⟨min s.epoch (2 ^ 31 - 1), (round2 s.tempC : Rat) / 100⟩]) = _
      rw [ih _ hlen2]
      simp [round2Sample]

/-- C5 counterexample, two independent loss modes.  Temperature: a stored
value of 1/3 is written "0.33" by the 2-decimal formatter and reloads as
33/100.  Epoch: importing "-1,20.5" stores epoch 4294967295 (the
`uint32_t` conversion of -1), the rewrite prints "4294967295,20.50", and
the reloading `toInt` — a saturating 32-bit `strtol` — parses it back as
LONG_MAX = 2147483647.  Either way the round trip does not return the
same sequence of samples the store held. -/
theorem c5_roundtrip_counterexample :
    saveAllToFS [⟨1, 1/3⟩] = "1,0.33\n".data ∧
    loadCSV (saveAllToFS [⟨1, 1/3⟩]) = [⟨1, 33/100⟩] ∧
    loadCSV (saveAllToFS [⟨1, 1/3⟩]) ≠ [⟨1, 1/3⟩] ∧
    (importBody "-1,20.5\n".data).1 = [⟨4294967295, 41/2⟩] ∧
    saveAllToFS [⟨4294967295, 41/2⟩] = "4294967295,20.50\n".data ∧
    loadCSV (saveAllToFS [⟨4294967295, 41/2⟩]) = [⟨2147483647, 41/2⟩] ∧
    loadCSV (saveAllToFS [⟨4294967295, 41/2⟩]) ≠ [⟨4294967295, 41/2⟩] :=
  ⟨by decide, by decide, by decide, by decide, by decide, by decide, by decide⟩

/-- C5 (amended): rewriting the persisted file from the store and loading
it back yields the store with every temperature rounded to two decimals
and every epoch capped at LONG_MAX = 2147483647 — the reloading `toInt`
is a saturating 32-bit `strtol`, so epochs below 2^31 are preserved
exactly while larger ones are corrupted to LONG_MAX; every line the
store writes parses on reload; and the round trip is the identity exactly
on stores whose temperatures are already two-decimal values and whose
epochs are below 2^31. -/
theorem c5_roundtrip (store : List Sample)
    (hlen : store.length ≤ MAX_SAMPLES) :
    loadCSV (saveAllToFS store) = store.map round2Sample ∧
    (∀ s ∈ store, (parseLine (csvLineBody s.epoch s.tempC)).isSome = true) ∧
    ((∀ s ∈ store, round2Sample s = s) →
      loadCSV (saveAllToFS store) = store) := by
  have hmain : loadCSV (saveAllToFS store) = store.map round2Sample := by
    rw [loadCSV, splitNl_saveAll,
      loadCSVLines_map store [] (by simpa using hlen), List.nil_append]
  refine ⟨hmain, ?_, ?_⟩
  · intro s hs
    rw [parseLine_csvLineBody s.epoch s.tempC]
    rfl
  · intro hfix
    rw [hmain]
    calc store.map round2Sample = store.map id := List.map_congr_left hfix
      _ = store := List.map_id store

/-- Witness for C5: a store holding one two-decimal sample round-trips
exactly. -/
theorem c5_roundtrip_witness :
    loadCSV (saveAllToFS [⟨100, 41/2⟩]) = [⟨100, 41/2⟩] :=
  (c5_roundtrip [⟨100, 41/2⟩] (by decide)).2.2 (by decide)

theorem foldl_importStep (lines : List (List Char)) :
    ∀ (st : List Sample) (n : Nat) (file : List Char),
    lines.foldl importStep (st, n, file) =
      (List.foldl appendSample st
          ((lines.filterMap parseLine).map fun p => ⟨p.1, p.2⟩),
        n + (lines.filterMap parseLine).length,
        file ++ ((lines.filterMap parseLine).map
          fun p => csvLine p.1 p.2).flatten) := by
  induction lines with
  | nil => intro st n file; simp
  | cons l ls ih =>
      intro st n file
      rcases hp : parseLine l with _ | ⟨e, t⟩
      · have hstep : importStep (st, n, file) l = (st, n, file) := by
          simp [importStep, hp]
        rw [List.foldl_cons, hstep, ih, List.filterMap_cons_none hp]
      · have hstep : importStep (st, n, file) l =
            (appendSample st ⟨e, t⟩, n + 1, file ++ csvLine e t) := by
          simp [importStep, hp]
        rw [List.foldl_cons, hstep, ih, List.filterMap_cons_some hp]
        simp only [List.map_cons, List.length_cons, List.flatten_cons,
          List.foldl_cons, Prod.mk.injEq]
        exact ⟨trivial, by omega, by simp [List.append_assoc]⟩

/-- C4: importing the body "100,20.5 newline 20.0,21.0 newline" into the
cleared store yields exactly the samples (100, 20.5) and (200, 21.0) in
that order, both appended to the persisted file, and the handler reports
a count of 2; in general, for every body, the reported count equals the
number of parseable lines, the final store is the append-fold of exactly
the parsed records, and the file holds exactly the accepted records —
unparseable lines are silently dropped, not counted, and do not abort
the processing of the remaining lines. -/
theorem c4_import_behaviour :
    importBody "100,20.5\n200,21.0\n".data =
      ([⟨100, 41/2⟩, ⟨200, 21⟩], 2, "100,20.50\n200,21.00\n".data) ∧
    (∀ body, importBody body =
      (List.foldl appendSample []
          (((splitNl body).filterMap parseLine).map fun p => ⟨p.1, p.2⟩),
        ((splitNl body).filterMap parseLine).length,
        (((splitNl body).filterMap parseLine).map
          fun p => csvLine p.1 p.2).flatten)) :=
  ⟨by decide, fun body => by
    have h := foldl_importStep (splitNl body) [] 0 []
    simpa [importBody] using h⟩

theorem commaIdx_eq_some_split (t : List Char) :
    ∀ c, commaIdx t = some c → ∃ a b, t = a ++ ',' :: b ∧ a.length = c ∧
      ',' ∉ a := by
  induction t with
  | nil => intro c h; simp [commaIdx] at h
  | cons x xs ih =>
      intro c h
      by_cases hx : x = ','
      · subst hx
        have h0 : some 0 = some c := by rw [← h, commaIdx, if_pos rfl]
        have hc : c = 0 := (Option.some.injEq _ _ ▸ h0).symm
        exact ⟨[], xs, rfl, by simp [hc], by simp⟩
      · rw [commaIdx, if_neg hx] at h
        rcases hmap : commaIdx xs with _ | c2
        · rw [hmap] at h
          rw [Option.map_none'] at h
          exact Option.noConfusion h
        · rw [hmap] at h
          rw [Option.map_some'] at h
          simp only [Option.some.injEq] at h
          obtain ⟨a, b, hab, hlen, hmem⟩ := ih c2 hmap
          refine ⟨x :: a, b, by simp [hab], by simp [hlen, h], ?_⟩
          intro hm
          rcases List.mem_cons.mp hm with he | hm2
          · exact hx he.symm
          · exact hmem hm2

/-- C10: `loadCSV` and the `/import` handler share the same line
acceptance — a line is accepted exactly when its trimmed text has a first
comma at index 1 or later, i.e. it is rejected only when empty or when
the comma is absent or at index 0 — and accepted fields are converted
with non-numeric text parsing to zero: the line "abc,def" is accepted by
both paths as the sample (0, 0.0) rather than skipped. -/
theorem c10_line_acceptance :
    (∀ line, (parseLine line).isSome = true ↔
      ∃ a b, trimChars line = a ++ ',' :: b ∧ a ≠ [] ∧ ',' ∉ a) ∧
    parseLine "abc,def".data = some (0, 0) ∧
    loadCSV "abc,def\n".data = [⟨0, 0⟩] ∧
    importBody "abc,def\n".data = ([⟨0, 0⟩], 1, "0,0.00\n".data) := by
  refine ⟨?_, by decide, by decide, by decide⟩
  intro line
  constructor
  · intro h
    rcases hidx : commaIdx (trimChars line) with _ | c
    · have hnone : parseLine line = none := by simp [parseLine, hidx]
      rw [hnone] at h
      exact absurd h (by decide)
    · by_cases hc : c = 0
      · subst hc
        have hnone : parseLine line = none := by simp [parseLine, hidx]
        rw [hnone] at h
        exact absurd h (by decide)
      · obtain ⟨a, b, hab, hlen, hmem⟩ := commaIdx_eq_some_split _ c hidx
        refine ⟨a, b, hab, ?_, hmem⟩
        intro hnil
        exact hc (by rw [← hlen, hnil]; rfl)
  · rintro ⟨a, b, hab, hne, hmem⟩
    have hidx : commaIdx (trimChars line) = some a.length := by
      rw [hab]
      exact commaIdx_append a b hmem
    have hlen : ¬(a.length = 0) := fun h0 =>
      hne (List.length_eq_zero.mp h0)
    simp [parseLine, hidx, hlen]

end RatKernelEval

end PicoTemp
